import Mathlib

/-!
# fairseq2 text utilities: `compute_code_point_length` and `infer_bom_encoding`

A shallow embedding of `src/fairseq2/native/data/text/detail/utf.cc` together with
machine-checked statements about it.

* A byte buffer (`std::string_view`, `memory_span`) is a `List Byte`, a byte being a value
  in `0 .. 255` (what `static_cast<std::uint8_t>` and `cast<const unsigned char>` yield).
* A thrown `invalid_utf8_error` is `Except.error Error.invalid_utf8_error`.
* In `compute_code_point_length` the read `*iter` carries the proof `iter < s.length`
  supplied by the loop test.
* In `infer_bom_encoding` an element read `chars[i]` is bounds-checked: a read outside
  the span is `none`, so that "every read is in bounds" is a statement that can be proved.
-/

set_option maxRecDepth 100000

namespace fairseq2

/-! ## Data model -/

/-- An 8-bit unsigned value. -/
abbrev Byte := Fin 256

/-- The only error kind of the file: `invalid_utf8_error`. -/
inductive Error where
  | invalid_utf8_error
  deriving DecidableEq, Repr

/-! ## `compute_code_point_length` (utf.cc, lines 16-43) -/

/-- Lines 22-32: the sequence length read off the lead byte by the masks
`0x80`, `0xe0`, `0xf0`, `0xf8`; `size` keeps its initial `0` when no branch is taken. -/
def lead_size (lead : Byte) : Nat :=
  if lead.val &&& 0x80 = 0x00 then 1
  else if lead.val &&& 0xe0 = 0xc0 then 2
  else if lead.val &&& 0xf0 = 0xe0 then 3
  else if lead.val &&& 0xf8 = 0xf0 then 4
  else 0

/-- Lines 21-42: the `for` loop, with the cursor `iter` kept as an offset from `s.begin()`.

`fuel` is a bound on the number of iterations still possible: the caller proves
`s.length - iter ≤ fuel`, and each iteration that does not throw advances `iter` by
`size ≥ 1`. With `fuel = 0` the proof says `iter ≥ s.length`, so the loop test
`iter < s.end()` is false and `len` is returned, exactly as in the other exit. -/
def loop (s : List Byte) :
    (fuel iter len : Nat) → s.length - iter ≤ fuel → Except Error Nat
  | 0, _, len, _ => .ok len
  | fuel + 1, iter, len, hfuel =>
    if h : iter < s.length then
      let lead := s[iter]
      let size := lead_size lead
      if hthrow : size = 0 ∨ s.length - iter < size then
        .error .invalid_utf8_error
      else
        loop s fuel (iter + size) (len + 1) (by omega)
    else
      .ok len

/-- Lines 16-43: `len = 0`, cursor at `s.begin()`, run the loop. -/
def compute_code_point_length (s : List Byte) : Except Error Nat :=
  loop s s.length 0 0 (by omega)

/-! ## `infer_bom_encoding` (utf.cc, lines 45-71) -/

/-- The test `chars[i] == v`. The read is bounds-checked: outside the span there is no
value to compare, and the test is `none`. -/
def byte_is (chars : List Byte) (i : Nat) (v : Byte) : Option Bool :=
  match chars[i]? with
  | some c => some (c == v)
  | none => none

/-- Short-circuit `a && b`: `b` is evaluated (and may be an out-of-span read) only when
`a` is true. -/
def and_then (a b : Option Bool) : Option Bool :=
  match a with
  | some true => b
  | some false => some false
  | none => none

/-- Lines 45-71. `none` stands for a read outside the span; a label is `some`. -/
def infer_bom_encoding (preamble : List Byte) : Option String := do
  let chars := preamble
  if chars.length ≥ 3 then
    if ← and_then (byte_is chars 0 0xef) (and_then (byte_is chars 1 0xbb)
        (byte_is chars 2 0xbf)) then
      return "UTF-8"
  if chars.length ≥ 4 then
    if ← and_then (byte_is chars 0 0x00) (and_then (byte_is chars 1 0x00)
        (and_then (byte_is chars 2 0xfe) (byte_is chars 3 0xff))) then
      return "UTF-32BE"
    if ← and_then (byte_is chars 0 0xff) (and_then (byte_is chars 1 0xfe)
        (and_then (byte_is chars 2 0x00) (byte_is chars 3 0x00))) then
      return "UTF-32LE"
  if chars.length ≥ 2 then
    if ← and_then (byte_is chars 0 0xfe) (byte_is chars 1 0xff) then
      return "UTF-16BE"
    if ← and_then (byte_is chars 0 0xff) (byte_is chars 1 0xfe) then
      return "UTF-16LE"
  return "UTF-8"

/-! ## Vocabulary of the statements -/

/-- The sequence length a lead byte announces by its leading bits:
`0xxxxxxx` gives 1, `110xxxxx` gives 2, `1110xxxx` gives 3, `11110xxx` gives 4, and any
other byte is not a recognised lead byte. -/
def implied_length (b : Byte) : Option Nat :=
  if b.val >>> 7 = 0b0 then some 1
  else if b.val >>> 5 = 0b110 then some 2
  else if b.val >>> 4 = 0b1110 then some 3
  else if b.val >>> 3 = 0b11110 then some 4
  else none

/-- A complete chunk: a recognised lead byte followed by arbitrary bytes, as many bytes
in all as the lead byte announces. -/
def is_chunk : List Byte → Prop
  | [] => False
  | lead :: rest => implied_length lead = some (rest.length + 1)

instance : DecidablePred is_chunk := fun c =>
  match c with
  | [] => isFalse (fun h => h)
  | lead :: rest => inferInstanceAs (Decidable (implied_length lead = some (rest.length + 1)))

/-- A remainder at which the scan throws: it is not empty, and its first byte either is
not a recognised lead byte or announces more bytes than the remainder has. -/
def is_bad_rest : List Byte → Prop
  | [] => False
  | lead :: rest =>
    implied_length lead = none ∨ ∃ n, implied_length lead = some n ∧ rest.length + 1 < n

/-- The byte of value `n mod 256`. -/
def byte_of_nat (n : Nat) : Byte := ⟨n % 256, Nat.mod_lt n (by decide)⟩

/-- A Unicode scalar value: `0 .. 0x10FFFF` without the surrogates `0xD800 .. 0xDFFF`. -/
def is_scalar_value (c : Nat) : Prop := c < 0xD800 ∨ (0xDFFF < c ∧ c ≤ 0x10FFFF)

instance : DecidablePred is_scalar_value := fun c =>
  inferInstanceAs (Decidable (c < 0xD800 ∨ (0xDFFF < c ∧ c ≤ 0x10FFFF)))

/-- The standard UTF-8 encoding of a code point (RFC 3629, section 3):

* `0 .. 0x7F` is `0xxxxxxx`;
* `0x80 .. 0x7FF` is `110xxxxx 10xxxxxx`;
* `0x800 .. 0xFFFF` is `1110xxxx 10xxxxxx 10xxxxxx`;
* `0x10000 .. 0x10FFFF` is `11110xxx 10xxxxxx 10xxxxxx 10xxxxxx`;

the `x` being the bits of the code point, most significant first.
`utf8_encode_eq_utf8EncodeChar` below checks it against `String.utf8EncodeChar`. -/
def utf8_encode (c : Nat) : List Byte :=
  if c < 0x80 then
    [byte_of_nat c]
  else if c < 0x800 then
    [byte_of_nat (0xC0 + c / 0x40), byte_of_nat (0x80 + c % 0x40)]
  else if c < 0x10000 then
    [byte_of_nat (0xE0 + c / 0x1000), byte_of_nat (0x80 + c / 0x40 % 0x40),
      byte_of_nat (0x80 + c % 0x40)]
  else
    [byte_of_nat (0xF0 + c / 0x40000), byte_of_nat (0x80 + c / 0x1000 % 0x40),
      byte_of_nat (0x80 + c / 0x40 % 0x40), byte_of_nat (0x80 + c % 0x40)]

/-- The table of byte-order marks and their labels. -/
def bom_table : List (List Byte × String) :=
  [([0xef, 0xbb, 0xbf], "UTF-8"),
   ([0x00, 0x00, 0xfe, 0xff], "UTF-32BE"),
   ([0xff, 0xfe, 0x00, 0x00], "UTF-32LE"),
   ([0xfe, 0xff], "UTF-16BE"),
   ([0xff, 0xfe], "UTF-16LE")]

/-- The labels `infer_bom_encoding` may return. -/
def encoding_labels : List String :=
  ["UTF-8", "UTF-16BE", "UTF-16LE", "UTF-32BE", "UTF-32LE"]

/-! ## The loop of `compute_code_point_length` as a machine

The same lines 21-42 once more, one loop iteration at a time, so that the cursor can be
spoken of at each iteration. `loop_returns_steps` and `loop_throws_steps` below tie the
machine to `loop`. -/

/-- Where the loop stands: at its test `iter < s.end()` with the cursor at offset `iter`
and the counter at `len`; or left through `return len`; or left through the `throw`. -/
inductive Config where
  | at_test (iter len : Nat)
  | returned (len : Nat)
  | thrown
  deriving DecidableEq, Repr

/-- Lines 21-40, once: the loop test and, when it holds, the loop body. After the loop
has been left nothing happens any more. -/
def step (s : List Byte) : Config → Config
  | .at_test iter len =>
    if h : iter < s.length then
      let lead := s[iter]
      let size := lead_size lead
      if size = 0 ∨ s.length - iter < size then
        .thrown
      else
        .at_test (iter + size) (len + 1)
    else
      .returned len
  | .returned len => .returned len
  | .thrown => .thrown

/-- The configuration `n` steps after `c`. -/
def steps (s : List Byte) : Nat → Config → Config
  | 0, c => c
  | n + 1, c => steps s n (step s c)

/-- The configuration `n` steps after the entry of the loop (line 19 and the
initialisation of line 21: `len = 0`, cursor at `s.begin()`). -/
def run (s : List Byte) (n : Nat) : Config :=
  steps s n (.at_test 0 0)

/-- The cursor of a configuration is within the buffer. -/
def cursor_in_bounds (s : List Byte) : Config → Prop
  | .at_test iter _ => iter ≤ s.length
  | _ => True

/-! ## The naive code-point length -/

/-- A continuation byte: `10xxxxxx`. -/
def is_continuation (b : Byte) : Bool :=
  b.val >>> 6 == 0b10

/-- The naive code-point length: the number of bytes whose top two bits are not `10`. -/
def naive_code_point_length (s : List Byte) : Nat :=
  s.countP (fun b => !is_continuation b)

/-- A chunk as UTF-8 shapes it: a recognised lead byte followed by continuation bytes,
as many bytes in all as the lead byte announces. -/
def is_continued_chunk : List Byte → Prop
  | [] => False
  | lead :: rest =>
    implied_length lead = some (rest.length + 1) ∧ ∀ b ∈ rest, is_continuation b = true

instance : DecidablePred is_continued_chunk := fun c =>
  match c with
  | [] => isFalse (fun h => h)
  | lead :: rest =>
    inferInstanceAs (Decidable (implied_length lead = some (rest.length + 1) ∧
      ∀ b ∈ rest, is_continuation b = true))

/-! ## The lead-byte classification -/

theorem lead_size_eq_implied : ∀ b : Byte, lead_size b = (implied_length b).getD 0 := by
  decide

theorem lead_size_of_implied {b : Byte} {n : Nat} (h : implied_length b = some n) :
    lead_size b = n := by
  rw [lead_size_eq_implied, h]; rfl

theorem lead_size_of_not_implied {b : Byte} (h : implied_length b = none) :
    lead_size b = 0 := by
  rw [lead_size_eq_implied, h]; rfl

theorem implied_length_pos : ∀ (b : Byte) (n : Nat), implied_length b = some n → 1 ≤ n ∧ n ≤ 4 := by
  intro b
  have : ∀ b : Byte, implied_length b = none ∨ implied_length b = some 1
      ∨ implied_length b = some 2 ∨ implied_length b = some 3 ∨ implied_length b = some 4 := by
    decide
  intro n h
  rcases this b with h0 | h0 | h0 | h0 | h0 <;> rw [h0] at h <;> simp at h <;> omega

/-! ## The loop reads only the bytes from the cursor on -/

theorem loop_append_left (pre s : List Byte) :
    ∀ (fuel fuel' i len : Nat) (h : (pre ++ s).length - (pre.length + i) ≤ fuel)
      (h' : s.length - i ≤ fuel'),
      loop (pre ++ s) fuel (pre.length + i) len h = loop s fuel' i len h' := by
  intro fuel
  induction fuel with
  | zero =>
    intro fuel' i len h h'
    have hi : ¬ i < s.length := by simp at h; omega
    cases fuel' with
    | zero => simp [loop]
    | succ f => simp [loop, hi]
  | succ f ih =>
    intro fuel' i len h h'
    by_cases hi : i < s.length
    · cases fuel' with
      | zero => omega
      | succ f' =>
        have hlt : pre.length + i < (pre ++ s).length := by simp; omega
        have hget : (pre ++ s)[pre.length + i] = s[i] := by
          rw [List.getElem_append_right (by omega)]
          simp
        have hlen : (pre ++ s).length - (pre.length + i) = s.length - i := by
          simp only [List.length_append]; omega
        simp only [loop, hlt, hi, dite_true, hget, hlen]
        by_cases hthrow : lead_size s[i] = 0 ∨ s.length - i < lead_size s[i]
        · simp only [hthrow, dite_true]
        · simp only [hthrow, dite_false]
          have hidx : pre.length + i + lead_size s[i] = pre.length + (i + lead_size s[i]) := by
            omega
          simp only [hidx]
          exact ih _ _ _ _ _
    · cases fuel' with
      | zero => simp [loop, hi]
      | succ f' => simp [loop, hi]

/-- The result does not depend on the fuel, as long as it is enough. -/
theorem loop_fuel_irrel (s : List Byte) (fuel fuel' i len : Nat)
    (h : s.length - i ≤ fuel) (h' : s.length - i ≤ fuel') :
    loop s fuel i len h = loop s fuel' i len h' := by
  have := loop_append_left [] s fuel fuel' i len (by simpa using h) h'
  simpa using this

/-- The counter `len` is only ever incremented: starting from `len` instead of `0` adds
`len` to a returned count and changes nothing else. -/
theorem loop_len (s : List Byte) :
    ∀ (fuel i len : Nat) (h : s.length - i ≤ fuel),
      loop s fuel i len h = (loop s fuel i 0 h).map (· + len) := by
  intro fuel
  induction fuel with
  | zero => intro i len h; simp [loop, Except.map]
  | succ f ih =>
    intro i len h
    by_cases hi : i < s.length
    · simp only [loop, hi, dite_true]
      by_cases hthrow : lead_size s[i] = 0 ∨ s.length - i < lead_size s[i]
      · simp only [hthrow, dite_true, Except.map]
      · simp only [hthrow, dite_false]
        rw [ih _ (len + 1), ih _ (0 + 1)]
        cases loop s f (i + lead_size s[i]) 0 (by omega) with
        | error e => simp [Except.map]
        | ok n => simp [Except.map]; omega
    · simp [loop, hi, Except.map]

/-! ## One step of the scan, on the bytes from the cursor on -/

/-- Empty buffer: the loop body is never entered. -/
theorem compute_nil : compute_code_point_length [] = .ok 0 := rfl

/-- A first byte that is no recognised lead byte, or that announces more bytes than there
are, makes the scan throw. -/
theorem compute_cons_throw (lead : Byte) (rest : List Byte)
    (h : lead_size lead = 0 ∨ rest.length + 1 < lead_size lead) :
    compute_code_point_length (lead :: rest) = .error .invalid_utf8_error := by
  simp only [compute_code_point_length, List.length_cons, loop]
  simp [h]

/-- A complete first sequence is skipped and counted once. -/
theorem compute_chunk_append (c rest : List Byte) (hc : is_chunk c) :
    compute_code_point_length (c ++ rest) =
      (compute_code_point_length rest).map (· + 1) := by
  match c, hc with
  | lead :: tl, hc =>
    have hsz : lead_size lead = tl.length + 1 := lead_size_of_implied hc
    have h1 : compute_code_point_length ((lead :: tl) ++ rest) =
        loop ((lead :: tl) ++ rest) (tl.length + rest.length) ((lead :: tl).length + 0) 1
          (by simp) := by
      simp only [compute_code_point_length, List.cons_append, List.length_cons,
        List.length_append, loop]
      simp [hsz]
    rw [h1, loop_append_left (lead :: tl) rest _ rest.length 0 1 _ (by omega), loop_len]
    rfl

/-- A run of complete chunks in front of `r` adds their number to the count of `r`. -/
theorem compute_join_append (chunks : List (List Byte)) (r : List Byte)
    (h : ∀ c ∈ chunks, is_chunk c) :
    compute_code_point_length (chunks.flatten ++ r) =
      (compute_code_point_length r).map (· + chunks.length) := by
  induction chunks with
  | nil =>
    simp only [List.flatten_nil, List.nil_append, List.length_nil]
    generalize compute_code_point_length r = x
    cases x <;> simp [Except.map]
  | cons c cs ih =>
    have hc : is_chunk c := h c (by simp)
    have hcs : ∀ c' ∈ cs, is_chunk c' := fun c' hc' => h c' (by simp [hc'])
    rw [List.flatten_cons, List.append_assoc, compute_chunk_append _ _ hc, ih hcs]
    generalize compute_code_point_length r = x
    cases x with
    | error e => simp [Except.map]
    | ok n => simp [Except.map]; omega

/-- At a bad remainder the scan throws. -/
theorem compute_bad_rest (r : List Byte) (h : is_bad_rest r) :
    compute_code_point_length r = .error .invalid_utf8_error := by
  match r, h with
  | lead :: rest, h =>
    apply compute_cons_throw
    rcases h with h | ⟨n, hn, hlt⟩
    · exact Or.inl (lead_size_of_not_implied h)
    · right; rw [lead_size_of_implied hn]; exact hlt

/-- Every buffer is a run of complete chunks followed by nothing or by a bad remainder. -/
theorem chunk_decomposition_aux :
    ∀ (k : Nat) (s : List Byte), s.length ≤ k →
      ∃ (chunks : List (List Byte)) (r : List Byte),
        (∀ c ∈ chunks, is_chunk c) ∧ s = chunks.flatten ++ r ∧ (r = [] ∨ is_bad_rest r) := by
  intro k
  induction k with
  | zero =>
    intro s hs
    have : s = [] := List.length_eq_zero.mp (by omega)
    subst this
    exact ⟨[], [], by simp, by simp, Or.inl rfl⟩
  | succ k ih =>
    intro s hs
    match s, hs with
    | [], _ => exact ⟨[], [], by simp, by simp, Or.inl rfl⟩
    | lead :: rest, hs =>
      cases hl : implied_length lead with
      | none => exact ⟨[], lead :: rest, by simp, by simp, Or.inr (Or.inl hl)⟩
      | some n =>
        by_cases hshort : rest.length + 1 < n
        · exact ⟨[], lead :: rest, by simp, by simp, Or.inr (Or.inr ⟨n, hl, hshort⟩)⟩
        · have hn := implied_length_pos lead n hl
          have hdrop : (rest.drop (n - 1)).length ≤ k := by
            simp only [List.length_drop]
            simp only [List.length_cons] at hs
            omega
          obtain ⟨cs, r, hcs, hjoin, hr⟩ := ih (rest.drop (n - 1)) hdrop
          refine ⟨(lead :: rest.take (n - 1)) :: cs, r, ?_, ?_, hr⟩
          · intro c hc
            rcases List.mem_cons.mp hc with rfl | hc
            · show implied_length lead = some ((rest.take (n - 1)).length + 1)
              rw [hl, List.length_take]
              congr 1
              omega
            · exact hcs c hc
          · rw [List.flatten_cons, List.append_assoc, ← hjoin, List.cons_append,
              List.take_append_drop]

theorem chunk_decomposition (s : List Byte) :
    ∃ (chunks : List (List Byte)) (r : List Byte),
      (∀ c ∈ chunks, is_chunk c) ∧ s = chunks.flatten ++ r ∧ (r = [] ∨ is_bad_rest r) :=
  chunk_decomposition_aux s.length s (Nat.le_refl _)

/-- A buffer on which the scan returns `m` is a run of `m` complete chunks. -/
theorem chunks_of_compute_ok (s : List Byte) (m : Nat)
    (h : compute_code_point_length s = .ok m) :
    ∃ chunks : List (List Byte),
      (∀ c ∈ chunks, is_chunk c) ∧ s = chunks.flatten ∧ chunks.length = m := by
  obtain ⟨cs, r, hcs, hjoin, hr⟩ := chunk_decomposition s
  have hcomp := compute_join_append cs r hcs
  rw [← hjoin, h] at hcomp
  rcases hr with rfl | hbad
  · refine ⟨cs, hcs, by simpa using hjoin, ?_⟩
    rw [compute_nil] at hcomp
    simp [Except.map] at hcomp
    exact hcomp.symm
  · rw [compute_bad_rest r hbad] at hcomp
    simp [Except.map] at hcomp

/-- After a prefix on which the scan returns `m`, the scan continues as on the rest
alone, with `m` added to a returned count. -/
theorem compute_append_of_ok (p r : List Byte) (m : Nat)
    (h : compute_code_point_length p = .ok m) :
    compute_code_point_length (p ++ r) = (compute_code_point_length r).map (· + m) := by
  obtain ⟨cs, hcs, rfl, rfl⟩ := chunks_of_compute_ok p m h
  exact compute_join_append cs r hcs

/-! ## Byte ranges and the leading bits -/

theorem implied_length_ranges : ∀ b : Byte,
    (b.val < 0x80 → implied_length b = some 1) ∧
    (0xC0 ≤ b.val → b.val < 0xE0 → implied_length b = some 2) ∧
    (0xE0 ≤ b.val → b.val < 0xF0 → implied_length b = some 3) ∧
    (0xF0 ≤ b.val → b.val < 0xF8 → implied_length b = some 4) ∧
    (0xF8 ≤ b.val → implied_length b = none) := by
  decide

theorem byte_of_nat_val (n : Nat) (h : n < 256) : (byte_of_nat n).val = n :=
  Nat.mod_eq_of_lt h

/-- The encoding of a code point up to `0x10FFFF` is a complete chunk. -/
theorem utf8_encode_is_chunk (c : Nat) (hc : c ≤ 0x10FFFF) : is_chunk (utf8_encode c) := by
  unfold utf8_encode
  split_ifs with h1 h2 h3
  · exact (implied_length_ranges _).1 (by rw [byte_of_nat_val _ (by omega)]; exact h1)
  · exact (implied_length_ranges _).2.1 (by rw [byte_of_nat_val _ (by omega)]; omega)
      (by rw [byte_of_nat_val _ (by omega)]; omega)
  · exact (implied_length_ranges _).2.2.1 (by rw [byte_of_nat_val _ (by omega)]; omega)
      (by rw [byte_of_nat_val _ (by omega)]; omega)
  · exact (implied_length_ranges _).2.2.2.1 (by rw [byte_of_nat_val _ (by omega)]; omega)
      (by rw [byte_of_nat_val _ (by omega)]; omega)

/-! ## `utf8_encode` agrees with the encoder of the Lean core library

`String.utf8EncodeChar` is what `String.toUTF8` is made of; `Char` is the type of the
Unicode scalar values. -/

theorem uint32_toUInt8_toNat (v : UInt32) : v.toUInt8.toNat = v.toNat % 256 := by
  simp [UInt32.toUInt8, Nat.toUInt8, UInt8.ofNat, UInt8.toNat]

theorem uint32_shr6_toNat (v : UInt32) : (v >>> 6).toNat = v.toNat / 64 := by
  show (v.toBitVec >>> ((UInt32.mod 6 32).toBitVec).toNat).toNat = _
  rw [BitVec.toNat_ushiftRight, show (UInt32.mod 6 32).toBitVec.toNat = 6 from rfl,
    Nat.shiftRight_eq_div_pow]
  rfl

theorem uint32_shr12_toNat (v : UInt32) : (v >>> 12).toNat = v.toNat / 4096 := by
  show (v.toBitVec >>> ((UInt32.mod 12 32).toBitVec).toNat).toNat = _
  rw [BitVec.toNat_ushiftRight, show (UInt32.mod 12 32).toBitVec.toNat = 12 from rfl,
    Nat.shiftRight_eq_div_pow]
  rfl

theorem uint32_shr18_toNat (v : UInt32) : (v >>> 18).toNat = v.toNat / 262144 := by
  show (v.toBitVec >>> ((UInt32.mod 18 32).toBitVec).toNat).toNat = _
  rw [BitVec.toNat_ushiftRight, show (UInt32.mod 18 32).toBitVec.toNat = 18 from rfl,
    Nat.shiftRight_eq_div_pow]
  rfl

theorem uint32_le_ofNat (v : UInt32) (k : Nat) (hk : k < 4294967296) :
    v ≤ UInt32.ofNat k ↔ v.toNat ≤ k := by
  rw [UInt32.le_def, BitVec.le_def]
  show v.toNat ≤ (BitVec.ofNat 32 k).toNat ↔ _
  rw [BitVec.toNat_ofNat, Nat.mod_eq_of_lt (by simpa using hk)]

theorem uint8_ofNat_toNat (x : UInt8) : UInt8.ofNat x.toNat = x := by
  cases x with
  | mk bv => simp [UInt8.ofNat, UInt8.toNat]

theorem mask_bits_fin : ∀ i : Fin 256,
    (UInt8.ofNat i.val &&& 0x1f ||| 0xc0).toNat = 0xC0 + i.val % 32 ∧
    (UInt8.ofNat i.val &&& 0x3f ||| 0x80).toNat = 0x80 + i.val % 64 ∧
    (UInt8.ofNat i.val &&& 0x0f ||| 0xe0).toNat = 0xE0 + i.val % 16 ∧
    (UInt8.ofNat i.val &&& 0x07 ||| 0xf0).toNat = 0xF0 + i.val % 8 := by
  decide

theorem mask_bits (x : UInt8) :
    (x &&& 0x1f ||| 0xc0).toNat = 0xC0 + x.toNat % 32 ∧
    (x &&& 0x3f ||| 0x80).toNat = 0x80 + x.toNat % 64 ∧
    (x &&& 0x0f ||| 0xe0).toNat = 0xE0 + x.toNat % 16 ∧
    (x &&& 0x07 ||| 0xf0).toNat = 0xF0 + x.toNat % 8 := by
  have hx : x.toNat < 256 := x.toBitVec.isLt
  have := mask_bits_fin ⟨x.toNat, hx⟩
  simpa [uint8_ofNat_toNat] using this

theorem uint8_val_eq_byte_of_nat (x : UInt8) (n : Nat) (h : x.toNat = n) :
    (x.val : Byte) = byte_of_nat n := by
  apply Fin.ext
  show x.toNat = n % 256
  have hx : x.toNat < 256 := x.toBitVec.isLt
  omega

/-- On every Unicode scalar value `utf8_encode` yields the bytes of the Lean core
encoder `String.utf8EncodeChar`. -/
theorem utf8_encode_eq_utf8EncodeChar (c : Char) :
    (String.utf8EncodeChar c).map (fun b => (b.val : Byte)) = utf8_encode c.toNat := by
  have hv : c.val.toNat < 0x110000 := by
    rcases c.valid with h | ⟨_, h⟩
    · exact Nat.lt_trans h (by decide)
    · exact h
  have h1 : c.val ≤ 0x7f ↔ c.val.toNat ≤ 0x7f := uint32_le_ofNat c.val 0x7f (by decide)
  have h2 : c.val ≤ 0x7ff ↔ c.val.toNat ≤ 0x7ff := uint32_le_ofNat c.val 0x7ff (by decide)
  have h3 : c.val ≤ 0xffff ↔ c.val.toNat ≤ 0xffff :=
    uint32_le_ofNat c.val 0xffff (by decide)
  unfold String.utf8EncodeChar utf8_encode Char.toNat
  simp only [h1, h2, h3]
  generalize c.val = v at hv ⊢
  clear h1 h2 h3
  by_cases c1 : v.toNat ≤ 0x7f
  · have c1n : v.toNat < 0x80 := by omega
    rw [if_pos c1, if_pos c1n]
    simp only [List.map_cons, List.map_nil]
    rw [uint8_val_eq_byte_of_nat _ v.toNat (by rw [uint32_toUInt8_toNat]; omega)]
  · have c1n : ¬ v.toNat < 0x80 := by omega
    rw [if_neg c1, if_neg c1n]
    have e4 : (v.toUInt8 &&& 0x3f ||| 0x80).toNat = 0x80 + v.toNat % 0x40 := by
      have := (mask_bits v.toUInt8).2.1
      rw [uint32_toUInt8_toNat] at this
      omega
    have e3 : ((v >>> 6).toUInt8 &&& 0x3f ||| 0x80).toNat =
        0x80 + v.toNat / 0x40 % 0x40 := by
      have := (mask_bits (v >>> 6).toUInt8).2.1
      rw [uint32_toUInt8_toNat, uint32_shr6_toNat] at this
      omega
    have e2 : ((v >>> 12).toUInt8 &&& 0x3f ||| 0x80).toNat =
        0x80 + v.toNat / 0x1000 % 0x40 := by
      have := (mask_bits (v >>> 12).toUInt8).2.1
      rw [uint32_toUInt8_toNat, uint32_shr12_toNat] at this
      omega
    by_cases c2 : v.toNat ≤ 0x7ff
    · have c2n : v.toNat < 0x800 := by omega
      rw [if_pos c2, if_pos c2n]
      have e1 : ((v >>> 6).toUInt8 &&& 0x1f ||| 0xc0).toNat = 0xC0 + v.toNat / 0x40 := by
        have := (mask_bits (v >>> 6).toUInt8).1
        rw [uint32_toUInt8_toNat, uint32_shr6_toNat] at this
        omega
      simp only [List.map_cons, List.map_nil]
      rw [uint8_val_eq_byte_of_nat _ _ e1, uint8_val_eq_byte_of_nat _ _ e4]
    · have c2n : ¬ v.toNat < 0x800 := by omega
      rw [if_neg c2, if_neg c2n]
      by_cases c3 : v.toNat ≤ 0xffff
      · have c3n : v.toNat < 0x10000 := by omega
        rw [if_pos c3, if_pos c3n]
        have e1 : ((v >>> 12).toUInt8 &&& 0x0f ||| 0xe0).toNat =
            0xE0 + v.toNat / 0x1000 := by
          have := (mask_bits (v >>> 12).toUInt8).2.2.1
          rw [uint32_toUInt8_toNat, uint32_shr12_toNat] at this
          omega
        simp only [List.map_cons, List.map_nil]
        rw [uint8_val_eq_byte_of_nat _ _ e1, uint8_val_eq_byte_of_nat _ _ e3,
          uint8_val_eq_byte_of_nat _ _ e4]
      · have c3n : ¬ v.toNat < 0x10000 := by omega
        rw [if_neg c3, if_neg c3n]
        have e1 : ((v >>> 18).toUInt8 &&& 0x07 ||| 0xf0).toNat =
            0xF0 + v.toNat / 0x40000 := by
          have := (mask_bits (v >>> 18).toUInt8).2.2.2
          rw [uint32_toUInt8_toNat, uint32_shr18_toNat] at this
          omega
        simp only [List.map_cons, List.map_nil]
        rw [uint8_val_eq_byte_of_nat _ _ e1, uint8_val_eq_byte_of_nat _ _ e2,
          uint8_val_eq_byte_of_nat _ _ e3, uint8_val_eq_byte_of_nat _ _ e4]

/-- The scalar values are the values of `Char`. -/
theorem is_scalar_value_iff (c : Nat) : is_scalar_value c ↔ ∃ ch : Char, ch.toNat = c := by
  constructor
  · intro h
    have hvalid : c.isValidChar := by
      rcases h with h | ⟨h1, h2⟩
      · exact Or.inl h
      · exact Or.inr ⟨h1, by omega⟩
    exact ⟨Char.ofNatAux c hvalid, rfl⟩
  · rintro ⟨ch, rfl⟩
    rcases ch.valid with h | ⟨h1, h2⟩
    · exact Or.inl h
    · exact Or.inr ⟨h1, by have : ch.val.toNat < 1114112 := h2; show ch.val.toNat ≤ _; omega⟩

/-! ## Statements about `compute_code_point_length` -/

/-- C1: on the standard UTF-8 encoding of a list of Unicode scalar values,
`compute_code_point_length` does not throw and returns the length of the list. -/
theorem C1_count_of_utf8_encoding (cs : List Nat) (h : ∀ c ∈ cs, is_scalar_value c) :
    compute_code_point_length (cs.map utf8_encode).flatten = .ok cs.length := by
  have hchunks : ∀ ch ∈ cs.map utf8_encode, is_chunk ch := by
    intro ch hch
    obtain ⟨c, hc, rfl⟩ := List.mem_map.mp hch
    apply utf8_encode_is_chunk
    rcases h c hc with h1 | ⟨_, h2⟩
    · omega
    · exact h2
  have := compute_join_append (cs.map utf8_encode) [] hchunks
  rw [List.append_nil, compute_nil] at this
  rw [this]
  simp [Except.map]

/-- Witness of C1: the code points of "Aé€" followed by U+1F600, and the bounds of the
four encoding lengths. -/
theorem C1_count_of_utf8_encoding_witness :
    (∀ c ∈ [0x41, 0xE9, 0x20AC, 0x1F600, 0x7F, 0x80, 0x7FF, 0x800, 0xFFFF, 0x10000, 0x10FFFF],
        is_scalar_value c) ∧
      compute_code_point_length
        (([0x41, 0xE9, 0x20AC, 0x1F600, 0x7F, 0x80, 0x7FF, 0x800, 0xFFFF, 0x10000,
          0x10FFFF].map utf8_encode).flatten) = .ok 11 :=
  ⟨by decide, C1_count_of_utf8_encoding _ (by decide)⟩

/-- C2: on a concatenation of complete chunks (a recognised lead byte followed by
arbitrary bytes up to the announced length), of whatever mixture of lengths,
`compute_code_point_length` returns the number of chunks. -/
theorem C2_count_of_chunks (chunks : List (List Byte)) (h : ∀ c ∈ chunks, is_chunk c) :
    compute_code_point_length chunks.flatten = .ok chunks.length := by
  have := compute_join_append chunks [] h
  rw [List.append_nil, compute_nil] at this
  rw [this]
  simp [Except.map]

/-- Witness of C2: chunks of lengths 2, 1, 4, 3 whose trailing bytes are not
continuation bytes. -/
theorem C2_count_of_chunks_witness :
    (∀ c ∈ ([[0xC3, 0x41], [0x41], [0xF0, 0xFF, 0x00, 0xC3], [0xE2, 0xE2, 0xE2]] :
        List (List Byte)), is_chunk c) ∧
      compute_code_point_length
        ([[0xC3, 0x41], [0x41], [0xF0, 0xFF, 0x00, 0xC3], [0xE2, 0xE2, 0xE2]] :
          List (List Byte)).flatten = .ok 4 :=
  ⟨by decide, C2_count_of_chunks _ (by decide)⟩

/-- C3: on a buffer of ASCII bytes (all below `0x80`) `compute_code_point_length`
returns the byte length. -/
theorem C3_count_of_ascii (s : List Byte) (h : ∀ b ∈ s, b.val < 0x80) :
    compute_code_point_length s = .ok s.length := by
  induction s with
  | nil => rfl
  | cons b t ih =>
    have hb : is_chunk [b] := (implied_length_ranges b).1 (h b (by simp))
    have ht := ih (fun x hx => h x (by simp [hx]))
    have := compute_chunk_append [b] t hb
    rw [List.singleton_append] at this
    rw [this, ht]
    simp [Except.map]

/-- Witness of C3: the bytes of "Hi!". -/
theorem C3_count_of_ascii_witness :
    (∀ b ∈ ([0x48, 0x69, 0x21] : List Byte), b.val < 0x80) ∧
      compute_code_point_length [0x48, 0x69, 0x21] = .ok 3 :=
  ⟨by decide, C3_count_of_ascii _ (by decide)⟩

/-- C4, as stated, fails: `[0xC3, 0xF8]` contains the byte `0xF8` of pattern `11111xxx`,
yet the scan takes it as the second byte of the sequence led by `0xC3` and returns 1. -/
theorem C4_counterexample :
    (∃ b ∈ ([0xC3, 0xF8] : List Byte), 0xF8 ≤ b.val) ∧
      compute_code_point_length [0xC3, 0xF8] = .ok 1 ∧
      compute_code_point_length [0xC3, 0xF8] ≠ .error .invalid_utf8_error :=
  ⟨by decide, rfl, fun h => Except.noConfusion h⟩

/-- C4, amended: a byte of pattern `11111xxx` standing where the scan reads a lead byte,
that is right after a prefix on which the scan succeeds, makes
`compute_code_point_length` throw `invalid_utf8_error`, whatever follows. -/
theorem C4_invalid_lead_fails (p r : List Byte) (b : Byte) (m : Nat)
    (hp : compute_code_point_length p = .ok m) (hb : 0xF8 ≤ b.val) :
    compute_code_point_length (p ++ b :: r) = .error .invalid_utf8_error := by
  rw [compute_append_of_ok p _ m hp,
    compute_bad_rest (b :: r) (Or.inl ((implied_length_ranges b).2.2.2.2 hb))]
  rfl

/-- Witness of C4 amended: `0xFF` after the sequence `C3 A9`, before an ASCII byte. -/
theorem C4_invalid_lead_fails_witness :
    compute_code_point_length [0xC3, 0xA9] = .ok 1 ∧ 0xF8 ≤ (0xFF : Byte).val ∧
      compute_code_point_length ([0xC3, 0xA9] ++ 0xFF :: [0x41]) =
        .error .invalid_utf8_error :=
  ⟨rfl, by decide, C4_invalid_lead_fails [0xC3, 0xA9] [0x41] 0xFF 1 rfl (by decide)⟩

/-- C5: `compute_code_point_length` throws `invalid_utf8_error` exactly on the buffers
`p ++ r` with `p` a (possibly empty) concatenation of complete chunks and `r` a non-empty
remainder whose first byte is no recognised lead byte or announces more bytes than `r`
has; on every other buffer it returns a count. -/
theorem C5_failure_characterisation (s : List Byte) :
    (compute_code_point_length s = .error .invalid_utf8_error ↔
      ∃ (chunks : List (List Byte)) (r : List Byte),
        (∀ c ∈ chunks, is_chunk c) ∧ s = chunks.flatten ++ r ∧ is_bad_rest r) ∧
    ((¬ ∃ (chunks : List (List Byte)) (r : List Byte),
        (∀ c ∈ chunks, is_chunk c) ∧ s = chunks.flatten ++ r ∧ is_bad_rest r) →
      ∃ n, compute_code_point_length s = .ok n) := by
  have hiff : compute_code_point_length s = .error .invalid_utf8_error ↔
      ∃ (chunks : List (List Byte)) (r : List Byte),
        (∀ c ∈ chunks, is_chunk c) ∧ s = chunks.flatten ++ r ∧ is_bad_rest r := by
    constructor
    · intro herr
      obtain ⟨cs, r, hcs, hjoin, hr⟩ := chunk_decomposition s
      rcases hr with rfl | hbad
      · have := compute_join_append cs [] hcs
        rw [← hjoin, herr, compute_nil] at this
        simp [Except.map] at this
      · exact ⟨cs, r, hcs, hjoin, hbad⟩
    · rintro ⟨cs, r, hcs, rfl, hbad⟩
      rw [compute_join_append cs r hcs, compute_bad_rest r hbad]
      rfl
  refine ⟨hiff, fun hno => ?_⟩
  cases hres : compute_code_point_length s with
  | ok n => exact ⟨n, rfl⟩
  | error e =>
    cases e
    exact absurd (hiff.mp hres) hno

/-- Witness of C5: `[0x41, 0xE2, 0x82]` is the chunk `[0x41]` followed by a sequence cut
short, and the scan throws on it. -/
theorem C5_failure_characterisation_witness :
    compute_code_point_length [0x41, 0xE2, 0x82] = .error .invalid_utf8_error :=
  (C5_failure_characterisation [0x41, 0xE2, 0x82]).1.mpr
    ⟨[[0x41]], [0xE2, 0x82], by decide, rfl, Or.inr ⟨3, by decide, by decide⟩⟩

/-- C6: a buffer that ends in the middle of a sequence (a prefix on which the scan
succeeds, a lead byte announcing `n ≥ 2` bytes, and fewer than `n - 1` further bytes)
makes `compute_code_point_length` throw `invalid_utf8_error`; `[0xE2]` is such a buffer. -/
theorem C6_truncated_sequence_fails :
    (∀ (p t : List Byte) (lead : Byte) (m n : Nat),
      compute_code_point_length p = .ok m → implied_length lead = some n → 2 ≤ n →
      t.length < n - 1 →
      compute_code_point_length (p ++ lead :: t) = .error .invalid_utf8_error) ∧
    compute_code_point_length [0xE2] = .error .invalid_utf8_error := by
  refine ⟨?_, rfl⟩
  intro p t lead m n hp hl hn ht
  rw [compute_append_of_ok p _ m hp,
    compute_bad_rest (lead :: t) (Or.inr ⟨n, hl, by omega⟩)]
  rfl

/-- Witness of C6: after "A", the lead byte `0xF0` announces four bytes and two follow. -/
theorem C6_truncated_sequence_fails_witness :
    compute_code_point_length [0x41] = .ok 1 ∧ implied_length 0xF0 = some 4 ∧
      compute_code_point_length ([0x41] ++ 0xF0 :: [0x9F, 0x98]) =
        .error .invalid_utf8_error :=
  ⟨rfl, by decide,
    C6_truncated_sequence_fails.1 [0x41] [0x9F, 0x98] 0xF0 1 4 rfl (by decide) (by decide)
      (by decide)⟩

/-- C7: on the empty buffer `compute_code_point_length` returns 0 and does not throw. -/
theorem C7_empty_buffer : compute_code_point_length [] = .ok 0 := rfl

/-! ## `infer_bom_encoding` as a cascade of tests, by buffer length -/

theorem byte_is_zero (a : Byte) (t : List Byte) (v : Byte) :
    byte_is (a :: t) 0 v = some (a == v) := by
  simp [byte_is]

theorem byte_is_succ (a : Byte) (t : List Byte) (i : Nat) (v : Byte) :
    byte_is (a :: t) (i + 1) v = byte_is t i v := by
  simp [byte_is]

theorem and_then_some (x y : Bool) : and_then (some x) (some y) = some (x && y) := by
  cases x <;> rfl

theorem infer_bom_nil : infer_bom_encoding [] = some "UTF-8" := rfl

theorem infer_bom_one (a : Byte) : infer_bom_encoding [a] = some "UTF-8" := rfl

theorem infer_bom_two (a b : Byte) :
    infer_bom_encoding [a, b] = some (
      if a = 0xfe ∧ b = 0xff then "UTF-16BE"
      else if a = 0xff ∧ b = 0xfe then "UTF-16LE"
      else "UTF-8") := by
  simp [infer_bom_encoding, byte_is_zero, byte_is_succ, and_then_some]
  split_ifs <;> simp_all

theorem infer_bom_three (a b c : Byte) :
    infer_bom_encoding [a, b, c] = some (
      if a = 0xef ∧ b = 0xbb ∧ c = 0xbf then "UTF-8"
      else if a = 0xfe ∧ b = 0xff then "UTF-16BE"
      else if a = 0xff ∧ b = 0xfe then "UTF-16LE"
      else "UTF-8") := by
  simp [infer_bom_encoding, byte_is_zero, byte_is_succ, and_then_some]
  split_ifs <;> simp_all

theorem infer_bom_four (a b c d : Byte) (rest : List Byte) :
    infer_bom_encoding (a :: b :: c :: d :: rest) = some (
      if a = 0xef ∧ b = 0xbb ∧ c = 0xbf then "UTF-8"
      else if a = 0x00 ∧ b = 0x00 ∧ c = 0xfe ∧ d = 0xff then "UTF-32BE"
      else if a = 0xff ∧ b = 0xfe ∧ c = 0x00 ∧ d = 0x00 then "UTF-32LE"
      else if a = 0xfe ∧ b = 0xff then "UTF-16BE"
      else if a = 0xff ∧ b = 0xfe then "UTF-16LE"
      else "UTF-8") := by
  simp [infer_bom_encoding, byte_is_zero, byte_is_succ, and_then_some]
  split_ifs <;> simp_all

/-! ## Statements about `infer_bom_encoding` -/

/-- C8: for a buffer of any length `infer_bom_encoding` never fails: no read falls
outside the buffer (the result is `some`), and the label is one of "UTF-8", "UTF-16BE",
"UTF-16LE", "UTF-32BE", "UTF-32LE". -/
theorem C8_never_fails (chars : List Byte) :
    ∃ label, infer_bom_encoding chars = some label ∧ label ∈ encoding_labels := by
  match chars with
  | [] => exact ⟨_, infer_bom_nil, by decide⟩
  | [a] => exact ⟨_, infer_bom_one a, by decide⟩
  | [a, b] =>
    refine ⟨_, infer_bom_two a b, ?_⟩
    split_ifs <;> decide
  | [a, b, c] =>
    refine ⟨_, infer_bom_three a b c, ?_⟩
    split_ifs <;> decide
  | a :: b :: c :: d :: rest =>
    refine ⟨_, infer_bom_four a b c d rest, ?_⟩
    split_ifs <;> decide

/-- C9: a buffer that starts with `FF FE 00 00` is labelled "UTF-32LE", not "UTF-16LE",
whatever follows. -/
theorem C9_utf32le_not_utf16le (rest : List Byte) :
    infer_bom_encoding (0xff :: 0xfe :: 0x00 :: 0x00 :: rest) = some "UTF-32LE" ∧
      infer_bom_encoding (0xff :: 0xfe :: 0x00 :: 0x00 :: rest) ≠ some "UTF-16LE" := by
  have h : infer_bom_encoding (0xff :: 0xfe :: 0x00 :: 0x00 :: rest) = some "UTF-32LE" := by
    rw [infer_bom_four]
    decide
  exact ⟨h, by rw [h]; decide⟩

/-- C10: `infer_bom_encoding` returns the label of a longest pattern of the BOM table
that is a prefix of the buffer, and "UTF-8" when no pattern of the table is a prefix. -/
theorem C10_longest_match (chars : List Byte) :
    (∃ e ∈ bom_table, e.1 <+: chars ∧
        (∀ e' ∈ bom_table, e'.1 <+: chars → e'.1.length ≤ e.1.length) ∧
        infer_bom_encoding chars = some e.2) ∨
      ((∀ e ∈ bom_table, ¬ e.1 <+: chars) ∧ infer_bom_encoding chars = some "UTF-8") := by
  match chars with
  | [] => right; simp [bom_table, infer_bom_nil]
  | [a] => right; simp [bom_table, infer_bom_one]
  | [a, b] =>
    rw [infer_bom_two]
    split_ifs with h1 h2
    · obtain ⟨rfl, rfl⟩ := h1
      simp [bom_table, List.cons_prefix_cons]
    · obtain ⟨rfl, rfl⟩ := h2
      simp [bom_table, List.cons_prefix_cons]
    · right
      simp only [not_and] at h1 h2
      simp [bom_table, List.cons_prefix_cons]
      exact ⟨fun ha hb => h1 ha.symm hb.symm, fun ha hb => h2 ha.symm hb.symm⟩
  | [a, b, c] =>
    rw [infer_bom_three]
    split_ifs with h1 h2 h3
    · obtain ⟨rfl, rfl, rfl⟩ := h1
      simp [bom_table, List.cons_prefix_cons]
    · obtain ⟨rfl, rfl⟩ := h2
      simp [bom_table, List.cons_prefix_cons]
    · obtain ⟨rfl, rfl⟩ := h3
      simp [bom_table, List.cons_prefix_cons]
    · right
      simp only [not_and] at h1 h2 h3
      simp [bom_table, List.cons_prefix_cons]
      exact ⟨fun ha hb hc => h1 ha.symm hb.symm hc.symm, fun ha hb => h2 ha.symm hb.symm,
        fun ha hb => h3 ha.symm hb.symm⟩
  | a :: b :: c :: d :: rest =>
    rw [infer_bom_four]
    split_ifs with h1 h2 h3 h4 h5
    · obtain ⟨rfl, rfl, rfl⟩ := h1
      simp [bom_table, List.cons_prefix_cons]
    · obtain ⟨rfl, rfl, rfl, rfl⟩ := h2
      simp [bom_table, List.cons_prefix_cons]
    · obtain ⟨rfl, rfl, rfl, rfl⟩ := h3
      simp [bom_table, List.cons_prefix_cons]
    · obtain ⟨rfl, rfl⟩ := h4
      simp [bom_table, List.cons_prefix_cons]
    · obtain ⟨rfl, rfl⟩ := h5
      simp [bom_table, List.cons_prefix_cons]
      intro hc hd
      exact h3 ⟨rfl, rfl, hc.symm, hd.symm⟩
    · right
      simp only [not_and] at h1 h2 h3 h4 h5
      simp [bom_table, List.cons_prefix_cons]
      exact ⟨fun ha hb hc => h1 ha.symm hb.symm hc.symm,
        fun ha hb hc hd => h2 ha.symm hb.symm hc.symm hd.symm,
        fun ha hb hc hd => h3 ha.symm hb.symm hc.symm hd.symm,
        fun ha hb => h4 ha.symm hb.symm, fun ha hb => h5 ha.symm hb.symm⟩

/-- C11: a buffer that begins with `EF BB BF` is labelled "UTF-8", one that begins with
`00 00 FE FF` is labelled "UTF-32BE", and one that begins with `FE FF` is labelled
"UTF-16BE", whatever bytes follow the pattern. -/
theorem C11_bom_labels :
    (∀ rest : List Byte, infer_bom_encoding ([0xef, 0xbb, 0xbf] ++ rest) = some "UTF-8") ∧
    (∀ rest : List Byte,
      infer_bom_encoding ([0x00, 0x00, 0xfe, 0xff] ++ rest) = some "UTF-32BE") ∧
    (∀ rest : List Byte, infer_bom_encoding ([0xfe, 0xff] ++ rest) = some "UTF-16BE") := by
  refine ⟨?_, ?_, ?_⟩
  · intro rest
    match rest with
    | [] => rfl
    | d :: rest =>
      show infer_bom_encoding (0xef :: 0xbb :: 0xbf :: d :: rest) = _
      rw [infer_bom_four]
      simp
  · intro rest
    show infer_bom_encoding (0x00 :: 0x00 :: 0xfe :: 0xff :: rest) = _
    rw [infer_bom_four]
    decide
  · intro rest
    match rest with
    | [] => rfl
    | [c] =>
      show infer_bom_encoding [0xfe, 0xff, c] = _
      rw [infer_bom_three]
      simp
    | c :: d :: rest =>
      show infer_bom_encoding (0xfe :: 0xff :: c :: d :: rest) = _
      rw [infer_bom_four]
      simp

/-- C12: `infer_bom_encoding` returns "UTF-16LE" exactly when the buffer has at least two
bytes, starts with `FF FE`, and does not have at least four bytes with the third and the
fourth both `00`; `[FF, FE]` and `[FF, FE, 00]` are labelled "UTF-16LE". -/
theorem C12_utf16le_iff :
    (∀ chars : List Byte,
      infer_bom_encoding chars = some "UTF-16LE" ↔
        (2 ≤ chars.length ∧ chars[0]? = some 0xff ∧ chars[1]? = some 0xfe ∧
          ¬ (4 ≤ chars.length ∧ chars[2]? = some 0x00 ∧ chars[3]? = some 0x00))) ∧
    infer_bom_encoding [0xff, 0xfe] = some "UTF-16LE" ∧
    infer_bom_encoding [0xff, 0xfe, 0x00] = some "UTF-16LE" := by
  refine ⟨?_, rfl, rfl⟩
  intro chars
  match chars with
  | [] => simp [infer_bom_nil]
  | [a] => simp [infer_bom_one]
  | [a, b] =>
    rw [infer_bom_two]
    split_ifs with h1 h2
    · obtain ⟨rfl, rfl⟩ := h1
      simp
    · obtain ⟨rfl, rfl⟩ := h2
      simp
    · simp only [not_and] at h2
      simp
      exact h2
  | [a, b, c] =>
    rw [infer_bom_three]
    split_ifs with h1 h2 h3
    · obtain ⟨rfl, rfl, rfl⟩ := h1
      simp
    · obtain ⟨rfl, rfl⟩ := h2
      simp
    · obtain ⟨rfl, rfl⟩ := h3
      simp
    · simp only [not_and] at h3
      simp
      exact h3
  | a :: b :: c :: d :: rest =>
    rw [infer_bom_four]
    split_ifs with h1 h2 h3 h4 h5
    · obtain ⟨rfl, rfl, rfl⟩ := h1
      simp
    · obtain ⟨rfl, rfl, rfl, rfl⟩ := h2
      simp
    · obtain ⟨rfl, rfl, rfl, rfl⟩ := h3
      simp
    · obtain ⟨rfl, rfl⟩ := h4
      simp
    · obtain ⟨rfl, rfl⟩ := h5
      have h3c : c = 0x00 → ¬ d = 0x00 := fun hc hd => h3 ⟨rfl, rfl, hc, hd⟩
      simp
      exact h3c
    · simp only [not_and] at h5
      simp
      intro ha hb
      exact absurd hb (h5 ha)

/-- C13: a buffer that has none of `EF BB BF`, `00 00 FE FF`, `FF FE 00 00`, `FE FF`,
`FF FE` as a prefix is labelled "UTF-8"; so are the empty buffer, every one-byte buffer
and the ASCII buffer `[0x41, 0x42]`. -/
theorem C13_default_label :
    (∀ chars : List Byte, (∀ e ∈ bom_table, ¬ e.1 <+: chars) →
      infer_bom_encoding chars = some "UTF-8") ∧
    infer_bom_encoding [] = some "UTF-8" ∧
    (∀ a : Byte, infer_bom_encoding [a] = some "UTF-8") ∧
    infer_bom_encoding [0x41, 0x42] = some "UTF-8" := by
  refine ⟨?_, rfl, fun a => rfl, rfl⟩
  intro chars hno
  have h16be : ¬ [0xfe, 0xff] <+: chars := hno ([0xfe, 0xff], "UTF-16BE") (by simp [bom_table])
  have h16le : ¬ [0xff, 0xfe] <+: chars := hno ([0xff, 0xfe], "UTF-16LE") (by simp [bom_table])
  have h32be : ¬ [0x00, 0x00, 0xfe, 0xff] <+: chars :=
    hno ([0x00, 0x00, 0xfe, 0xff], "UTF-32BE") (by simp [bom_table])
  have h32le : ¬ [0xff, 0xfe, 0x00, 0x00] <+: chars :=
    hno ([0xff, 0xfe, 0x00, 0x00], "UTF-32LE") (by simp [bom_table])
  match chars with
  | [] => rfl
  | [a] => rfl
  | [a, b] =>
    rw [infer_bom_two]
    split_ifs with h1 h2
    · obtain ⟨rfl, rfl⟩ := h1
      exact absurd (List.prefix_refl _) h16be
    · obtain ⟨rfl, rfl⟩ := h2
      exact absurd (List.prefix_refl _) h16le
    · rfl
  | [a, b, c] =>
    rw [infer_bom_three]
    split_ifs with h1 h2 h3
    · rfl
    · obtain ⟨rfl, rfl⟩ := h2
      exact absurd (List.prefix_append [0xfe, 0xff] [c]) h16be
    · obtain ⟨rfl, rfl⟩ := h3
      exact absurd (List.prefix_append [0xff, 0xfe] [c]) h16le
    · rfl
  | a :: b :: c :: d :: rest =>
    rw [infer_bom_four]
    split_ifs with h1 h2 h3 h4 h5
    · rfl
    · obtain ⟨rfl, rfl, rfl, rfl⟩ := h2
      exact absurd (List.prefix_append [0x00, 0x00, 0xfe, 0xff] rest) h32be
    · obtain ⟨rfl, rfl, rfl, rfl⟩ := h3
      exact absurd (List.prefix_append [0xff, 0xfe, 0x00, 0x00] rest) h32le
    · obtain ⟨rfl, rfl⟩ := h4
      exact absurd (List.prefix_append [0xfe, 0xff] (c :: d :: rest)) h16be
    · obtain ⟨rfl, rfl⟩ := h5
      exact absurd (List.prefix_append [0xff, 0xfe] (c :: d :: rest)) h16le
    · rfl

/-- Witness of C13: the buffer `[0x00, 0x00, 0xFE, 0x41]` misses `00 00 FE FF` by its
last byte. -/
theorem C13_default_label_witness :
    (∀ e ∈ bom_table, ¬ e.1 <+: ([0x00, 0x00, 0xfe, 0x41] : List Byte)) ∧
      infer_bom_encoding [0x00, 0x00, 0xfe, 0x41] = some "UTF-8" :=
  ⟨by decide, C13_default_label.1 [0x00, 0x00, 0xfe, 0x41] (by decide)⟩

/-- C14: the label depends only on the first four bytes: `infer_bom_encoding b` is
`infer_bom_encoding` of the first `min 4 (length b)` bytes of `b`, and two buffers with
the same first four bytes get the same label. -/
theorem C14_first_four_bytes :
    (∀ b : List Byte, infer_bom_encoding b = infer_bom_encoding (b.take (min 4 b.length))) ∧
    (∀ b₁ b₂ : List Byte, b₁.take 4 = b₂.take 4 →
      infer_bom_encoding b₁ = infer_bom_encoding b₂) := by
  have htake : ∀ b : List Byte, infer_bom_encoding b = infer_bom_encoding (b.take 4) := by
    intro b
    match b with
    | [] => rfl
    | [_] => rfl
    | [_, _] => rfl
    | [_, _, _] => rfl
    | a :: b :: c :: d :: rest =>
      rw [infer_bom_four]
      show _ = infer_bom_encoding (a :: b :: c :: d :: [])
      rw [infer_bom_four]
  refine ⟨fun b => ?_, fun b₁ b₂ h => ?_⟩
  · have hmin : b.take (min 4 b.length) = b.take 4 := by
      by_cases hb : 4 ≤ b.length
      · rw [Nat.min_eq_left hb]
      · rw [Nat.min_eq_right (by omega), List.take_length,
          List.take_of_length_le (by omega)]
    rw [hmin]
    exact htake b
  · rw [htake b₁, htake b₂, h]

/-- Witness of C14: two buffers that differ from the fifth byte on. -/
theorem C14_first_four_bytes_witness :
    ([0xff, 0xfe, 0x00, 0x00, 0x41] : List Byte).take 4 =
        ([0xff, 0xfe, 0x00, 0x00, 0x42, 0x43] : List Byte).take 4 ∧
      infer_bom_encoding [0xff, 0xfe, 0x00, 0x00, 0x41] =
        infer_bom_encoding [0xff, 0xfe, 0x00, 0x00, 0x42, 0x43] :=
  ⟨rfl, C14_first_four_bytes.2 _ _ rfl⟩

/-! ## The machine and `loop` -/

theorem steps_succ (s : List Byte) (n : Nat) (c : Config) :
    steps s (n + 1) c = step s (steps s n c) := by
  induction n generalizing c with
  | zero => rfl
  | succ n ih =>
    show steps s (n + 1) (step s c) = _
    rw [ih]
    rfl

theorem step_at_test (s : List Byte) (iter len : Nat) (h : iter < s.length) :
    step s (.at_test iter len) =
      if lead_size s[iter] = 0 ∨ s.length - iter < lead_size s[iter] then .thrown
      else .at_test (iter + lead_size s[iter]) (len + 1) := by
  simp [step, h]

theorem step_at_end (s : List Byte) (iter len : Nat) (h : ¬ iter < s.length) :
    step s (.at_test iter len) = .returned len := by
  simp [step, h]

/-- A count returned by `loop` is reached by the machine, with the cursor at the end. -/
theorem loop_returns_steps (s : List Byte) :
    ∀ (fuel iter len : Nat) (h : s.length - iter ≤ fuel) (c : Nat), iter ≤ s.length →
      loop s fuel iter len h = .ok c →
      ∃ k, k ≤ s.length - iter ∧ steps s k (.at_test iter len) = .at_test s.length c := by
  intro fuel
  induction fuel with
  | zero =>
    intro iter len h c hle hres
    simp only [loop] at hres
    cases hres
    have : iter = s.length := by omega
    exact ⟨0, by omega, by rw [this]; rfl⟩
  | succ f ih =>
    intro iter len h c hle hres
    by_cases hi : iter < s.length
    · simp only [loop, hi, dite_true] at hres
      by_cases hthrow : lead_size s[iter] = 0 ∨ s.length - iter < lead_size s[iter]
      · simp only [hthrow, dite_true] at hres
        cases hres
      · simp only [hthrow, dite_false] at hres
        obtain ⟨k, hk, hsteps⟩ := ih _ _ _ c (by omega) hres
        refine ⟨k + 1, by omega, ?_⟩
        show steps s k (step s (.at_test iter len)) = _
        rw [step_at_test s iter len hi, if_neg hthrow]
        exact hsteps
    · simp only [loop, hi, dite_false] at hres
      cases hres
      have : iter = s.length := by omega
      exact ⟨0, by omega, by rw [this]; rfl⟩

/-- A throw of `loop` is a throw of the machine, in a loop body entered with the cursor
inside the buffer. -/
theorem loop_throws_steps (s : List Byte) :
    ∀ (fuel iter len : Nat) (h : s.length - iter ≤ fuel) (e : Error),
      loop s fuel iter len h = .error e →
      ∃ k, k + 1 ≤ s.length - iter ∧
        (∃ i l, steps s k (.at_test iter len) = .at_test i l ∧ i < s.length) ∧
        steps s (k + 1) (.at_test iter len) = .thrown := by
  intro fuel
  induction fuel with
  | zero =>
    intro iter len h e hres
    simp only [loop] at hres
    cases hres
  | succ f ih =>
    intro iter len h e hres
    by_cases hi : iter < s.length
    · simp only [loop, hi, dite_true] at hres
      by_cases hthrow : lead_size s[iter] = 0 ∨ s.length - iter < lead_size s[iter]
      · refine ⟨0, by omega, ⟨iter, len, rfl, hi⟩, ?_⟩
        show step s (.at_test iter len) = _
        rw [step_at_test s iter len hi, if_pos hthrow]
      · simp only [hthrow, dite_false] at hres
        obtain ⟨k, hk, ⟨i, l, hat, hil⟩, hsteps⟩ := ih _ _ _ e hres
        refine ⟨k + 1, by omega, ⟨i, l, ?_, hil⟩, ?_⟩
        · show steps s k (step s (.at_test iter len)) = _
          rw [step_at_test s iter len hi, if_neg hthrow]
          exact hat
        · show steps s (k + 1) (step s (.at_test iter len)) = _
          rw [step_at_test s iter len hi, if_neg hthrow]
          exact hsteps
    · simp only [loop, hi, dite_false] at hres
      cases hres

theorem step_cursor_in_bounds (s : List Byte) (c : Config) (h : cursor_in_bounds s c) :
    cursor_in_bounds s (step s c) := by
  match c, h with
  | .at_test iter len, h =>
    by_cases hi : iter < s.length
    · rw [step_at_test s iter len hi]
      split_ifs with hthrow
      · trivial
      · show iter + lead_size s[iter] ≤ s.length
        omega
    · rw [step_at_end s iter len hi]
      trivial
  | .returned _, _ => trivial
  | .thrown, _ => trivial

theorem steps_cursor_in_bounds (s : List Byte) (n : Nat) (c : Config)
    (h : cursor_in_bounds s c) : cursor_in_bounds s (steps s n c) := by
  induction n with
  | zero => exact h
  | succ n ih =>
    rw [steps_succ]
    exact step_cursor_in_bounds s _ ih

/-- One loop body that does not throw moves the cursor on by 1 to 4 bytes and adds one
to the counter. -/
theorem step_advance (s : List Byte) (iter len iter' len' : Nat)
    (h : step s (.at_test iter len) = .at_test iter' len') :
    iter + 1 ≤ iter' ∧ iter' ≤ iter + 4 ∧ len' = len + 1 := by
  by_cases hi : iter < s.length
  · rw [step_at_test s iter len hi] at h
    split_ifs at h with hthrow
    cases h
    have h4 : lead_size s[iter] ≤ 4 := by
      have : ∀ b : Byte, lead_size b ≤ 4 := by decide
      exact this _
    omega
  · rw [step_at_end s iter len hi] at h
    cases h

/-! ## Statements about the loop of `compute_code_point_length` -/

/-- C15: the cursor is at most the buffer length whenever the loop test is reached, that
is at the start of every iteration and after every advance; and when a count is returned
the cursor is exactly at the buffer length. -/
theorem C15_cursor_invariant (s : List Byte) :
    (∀ n iter len, run s n = .at_test iter len → iter ≤ s.length) ∧
    (∀ c, compute_code_point_length s = .ok c →
      ∃ n, run s n = .at_test s.length c ∧ run s (n + 1) = .returned c) := by
  constructor
  · intro n iter len hrun
    have := steps_cursor_in_bounds s n (.at_test 0 0) (Nat.zero_le _)
    rw [show steps s n (.at_test 0 0) = run s n from rfl, hrun] at this
    exact this
  · intro c hc
    obtain ⟨k, _, hsteps⟩ := loop_returns_steps s s.length 0 0 (by omega) c (Nat.zero_le _) hc
    refine ⟨k, hsteps, ?_⟩
    show steps s (k + 1) (.at_test 0 0) = _
    rw [steps_succ, hsteps, step_at_end s s.length c (Nat.lt_irrefl _)]

/-- Witness of C15: on `[0x41, 0xE2, 0x82, 0xAC]` the count 2 is returned with the cursor
at offset 4. -/
theorem C15_cursor_invariant_witness :
    compute_code_point_length [0x41, 0xE2, 0x82, 0xAC] = .ok 2 ∧
      ∃ n, run [0x41, 0xE2, 0x82, 0xAC] n = .at_test 4 2 ∧
        run [0x41, 0xE2, 0x82, 0xAC] (n + 1) = .returned 2 :=
  ⟨rfl, (C15_cursor_invariant [0x41, 0xE2, 0x82, 0xAC]).2 2 rfl⟩

/-- C16: the masks `0x80`, `0xE0`, `0xF0`, `0xF8` give size 1 exactly on `0x00..0x7F`,
size 2 exactly on `0xC0..0xDF`, size 3 exactly on `0xE0..0xEF`, size 4 exactly on
`0xF0..0xF7`, and size 0 exactly on `0x80..0xBF` and `0xF8..0xFF`; hence a buffer whose
first byte is in `0x80..0xBF` or `0xF8..0xFF` makes `compute_code_point_length` throw. -/
theorem C16_lead_byte_partition :
    (∀ b : Byte,
      (lead_size b = 1 ↔ b.val ≤ 0x7F) ∧
      (lead_size b = 2 ↔ 0xC0 ≤ b.val ∧ b.val ≤ 0xDF) ∧
      (lead_size b = 3 ↔ 0xE0 ≤ b.val ∧ b.val ≤ 0xEF) ∧
      (lead_size b = 4 ↔ 0xF0 ≤ b.val ∧ b.val ≤ 0xF7) ∧
      (lead_size b = 0 ↔ (0x80 ≤ b.val ∧ b.val ≤ 0xBF) ∨ (0xF8 ≤ b.val ∧ b.val ≤ 0xFF))) ∧
    (∀ (b : Byte) (rest : List Byte),
      (0x80 ≤ b.val ∧ b.val ≤ 0xBF) ∨ (0xF8 ≤ b.val ∧ b.val ≤ 0xFF) →
      compute_code_point_length (b :: rest) = .error .invalid_utf8_error) := by
  have hpart : ∀ b : Byte,
      (lead_size b = 1 ↔ b.val ≤ 0x7F) ∧
      (lead_size b = 2 ↔ 0xC0 ≤ b.val ∧ b.val ≤ 0xDF) ∧
      (lead_size b = 3 ↔ 0xE0 ≤ b.val ∧ b.val ≤ 0xEF) ∧
      (lead_size b = 4 ↔ 0xF0 ≤ b.val ∧ b.val ≤ 0xF7) ∧
      (lead_size b = 0 ↔ (0x80 ≤ b.val ∧ b.val ≤ 0xBF) ∨ (0xF8 ≤ b.val ∧ b.val ≤ 0xFF)) := by
    decide
  refine ⟨hpart, fun b rest hb => ?_⟩
  exact compute_cons_throw b rest (Or.inl ((hpart b).2.2.2.2.mpr hb))

/-- Witness of C16: the continuation byte `0x80` in front of ASCII bytes. -/
theorem C16_lead_byte_partition_witness :
    ((0x80 ≤ (0x80 : Byte).val ∧ (0x80 : Byte).val ≤ 0xBF) ∨
        (0xF8 ≤ (0x80 : Byte).val ∧ (0x80 : Byte).val ≤ 0xFF)) ∧
      compute_code_point_length (0x80 :: [0x41, 0x42]) = .error .invalid_utf8_error :=
  ⟨by decide, C16_lead_byte_partition.2 0x80 [0x41, 0x42] (by decide)⟩

/-- C17: the loop terminates. A loop body that does not throw moves the cursor on by at
least 1 and at most 4 bytes; after at most as many loop bodies as the buffer has bytes
the loop is left, either through `return` with the count or through the throw of
`invalid_utf8_error`. -/
theorem C17_loop_terminates (s : List Byte) :
    (∀ iter len iter' len', step s (.at_test iter len) = .at_test iter' len' →
      iter + 1 ≤ iter' ∧ iter' ≤ iter + 4 ∧ len' = len + 1) ∧
    (∃ n, n ≤ s.length ∧
      ((∃ c, run s n = .at_test s.length c ∧ run s (n + 1) = .returned c ∧
          compute_code_point_length s = .ok c) ∨
        (∃ k i l, n = k + 1 ∧ run s k = .at_test i l ∧ i < s.length ∧ run s n = .thrown ∧
          compute_code_point_length s = .error .invalid_utf8_error))) := by
  refine ⟨step_advance s, ?_⟩
  cases hres : compute_code_point_length s with
  | ok c =>
    obtain ⟨k, hk, hsteps⟩ :=
      loop_returns_steps s s.length 0 0 (by omega) c (Nat.zero_le _) hres
    refine ⟨k, by omega, Or.inl ⟨c, hsteps, ?_, rfl⟩⟩
    show steps s (k + 1) (.at_test 0 0) = _
    rw [steps_succ, hsteps, step_at_end s s.length c (Nat.lt_irrefl _)]
  | error e =>
    obtain ⟨k, hk, ⟨i, l, hat, hil⟩, hsteps⟩ :=
      loop_throws_steps s s.length 0 0 (by omega) e hres
    cases e
    exact ⟨k + 1, by omega, Or.inr ⟨k, i, l, rfl, hat, hil, hsteps, rfl⟩⟩

/-- Witness of C17: the body entered at offset 1 of `[0x41, 0xE2, 0x82, 0xAC]` moves the
cursor on by 3. -/
theorem C17_loop_terminates_witness :
    step [0x41, 0xE2, 0x82, 0xAC] (.at_test 1 1) = .at_test 4 2 ∧
      (1 + 1 ≤ 4 ∧ 4 ≤ 1 + 4 ∧ 2 = 1 + 1) :=
  ⟨rfl, (C17_loop_terminates [0x41, 0xE2, 0x82, 0xAC]).1 1 1 4 2 rfl⟩

/-! ## Counts, lengths and concatenation -/

theorem chunk_length_bounds (c : List Byte) (h : is_chunk c) :
    1 ≤ c.length ∧ c.length ≤ 4 := by
  match c, h with
  | lead :: rest, h =>
    have := implied_length_pos lead _ h
    simpa using this

theorem flatten_chunks_length (chunks : List (List Byte)) (h : ∀ c ∈ chunks, is_chunk c) :
    chunks.length ≤ chunks.flatten.length ∧ chunks.flatten.length ≤ 4 * chunks.length := by
  induction chunks with
  | nil => simp
  | cons c cs ih =>
    have hc := chunk_length_bounds c (h c (by simp))
    have hcs := ih (fun c' hc' => h c' (by simp [hc']))
    simp only [List.flatten_cons, List.length_append, List.length_cons]
    omega

/-- C18: a returned count `c` for a buffer of `n` bytes has `c ≤ n` and `n ≤ 4 * c`. -/
theorem C18_count_bounds (s : List Byte) (c : Nat)
    (h : compute_code_point_length s = .ok c) :
    c ≤ s.length ∧ s.length ≤ 4 * c := by
  obtain ⟨cs, hcs, rfl, rfl⟩ := chunks_of_compute_ok s c h
  exact flatten_chunks_length cs hcs

/-- Witness of C18: 2 code points in 4 bytes. -/
theorem C18_count_bounds_witness :
    compute_code_point_length [0x41, 0xE2, 0x82, 0xAC] = .ok 2 ∧
      2 ≤ ([0x41, 0xE2, 0x82, 0xAC] : List Byte).length ∧
      ([0x41, 0xE2, 0x82, 0xAC] : List Byte).length ≤ 4 * 2 :=
  ⟨rfl, C18_count_bounds [0x41, 0xE2, 0x82, 0xAC] 2 rfl⟩

/-- C19: after a prefix `a` on which `compute_code_point_length` returns `m`, the result
on `a ++ b` is `m + k` when the result on `b` is `k`, and the throw of
`invalid_utf8_error` when `b` makes it throw. -/
theorem C19_additive (a b : List Byte) (m : Nat)
    (ha : compute_code_point_length a = .ok m) :
    (∀ k, compute_code_point_length b = .ok k →
      compute_code_point_length (a ++ b) = .ok (m + k)) ∧
    (compute_code_point_length b = .error .invalid_utf8_error →
      compute_code_point_length (a ++ b) = .error .invalid_utf8_error) := by
  have happ := compute_append_of_ok a b m ha
  constructor
  · intro k hk
    rw [happ, hk]
    show Except.ok (k + m) = Except.ok (m + k)
    rw [Nat.add_comm]
  · intro hb
    rw [happ, hb]
    rfl

/-- Witness of C19: "A€" followed by "é", and "A€" followed by a sequence cut short. -/
theorem C19_additive_witness :
    compute_code_point_length [0x41, 0xE2, 0x82, 0xAC] = .ok 2 ∧
      compute_code_point_length [0xC3, 0xA9] = .ok 1 ∧
      compute_code_point_length ([0x41, 0xE2, 0x82, 0xAC] ++ [0xC3, 0xA9]) = .ok (2 + 1) ∧
      compute_code_point_length [0xC3] = .error .invalid_utf8_error ∧
      compute_code_point_length ([0x41, 0xE2, 0x82, 0xAC] ++ [0xC3]) =
        .error .invalid_utf8_error :=
  ⟨rfl, rfl, (C19_additive [0x41, 0xE2, 0x82, 0xAC] [0xC3, 0xA9] 2 rfl).1 1 rfl, rfl,
    (C19_additive [0x41, 0xE2, 0x82, 0xAC] [0xC3] 2 rfl).2 rfl⟩

/-! ## The naive count on well-formed input -/

theorem lead_not_continuation : ∀ (b : Byte), implied_length b ≠ none →
    is_continuation b = false := by
  decide

theorem naive_continued_chunk (c : List Byte) (h : is_continued_chunk c) :
    naive_code_point_length c = 1 := by
  match c, h with
  | lead :: rest, ⟨hl, hrest⟩ =>
    have hlead : is_continuation lead = false :=
      lead_not_continuation lead (by rw [hl]; simp)
    have hzero : List.countP (fun b => !is_continuation b) rest = 0 := by
      rw [List.countP_eq_zero]
      intro b hb
      simp [hrest b hb]
    simp [naive_code_point_length, List.countP_cons, hlead, hzero]

theorem naive_flatten (chunks : List (List Byte)) (h : ∀ c ∈ chunks, is_continued_chunk c) :
    naive_code_point_length chunks.flatten = chunks.length := by
  induction chunks with
  | nil => rfl
  | cons c cs ih =>
    have hc := naive_continued_chunk c (h c (by simp))
    have hcs := ih (fun c' hc' => h c' (by simp [hc']))
    unfold naive_code_point_length at hc hcs ⊢
    rw [List.flatten_cons, List.countP_append, hc, hcs, List.length_cons]
    omega

theorem is_chunk_of_continued (c : List Byte) (h : is_continued_chunk c) : is_chunk c := by
  match c, h with
  | _ :: _, ⟨hl, _⟩ => exact hl

/-- C20: on a concatenation of chunks made of a recognised lead byte and the announced
number of continuation bytes `10xxxxxx`, `compute_code_point_length` returns the number
of bytes of the buffer whose top two bits are not `10`. -/
theorem C20_naive_count (chunks : List (List Byte))
    (h : ∀ c ∈ chunks, is_continued_chunk c) :
    compute_code_point_length chunks.flatten =
      .ok (naive_code_point_length chunks.flatten) := by
  have hchunks : ∀ c ∈ chunks, is_chunk c := fun c hc => is_chunk_of_continued c (h c hc)
  have := compute_join_append chunks [] hchunks
  rw [List.append_nil, compute_nil] at this
  rw [this, naive_flatten chunks h]
  simp [Except.map]

/-- Witness of C20: "A", "é", "€" and U+1F600: 4 bytes out of 10 are not continuation
bytes. -/
theorem C20_naive_count_witness :
    (∀ c ∈ ([[0x41], [0xC3, 0xA9], [0xE2, 0x82, 0xAC], [0xF0, 0x9F, 0x98, 0x80]] :
        List (List Byte)), is_continued_chunk c) ∧
      naive_code_point_length ([[0x41], [0xC3, 0xA9], [0xE2, 0x82, 0xAC],
        [0xF0, 0x9F, 0x98, 0x80]] : List (List Byte)).flatten = 4 ∧
      compute_code_point_length ([[0x41], [0xC3, 0xA9], [0xE2, 0x82, 0xAC],
        [0xF0, 0x9F, 0x98, 0x80]] : List (List Byte)).flatten =
        .ok (naive_code_point_length ([[0x41], [0xC3, 0xA9], [0xE2, 0x82, 0xAC],
          [0xF0, 0x9F, 0x98, 0x80]] : List (List Byte)).flatten) :=
  ⟨by decide, by decide, C20_naive_count _ (by decide)⟩

end fairseq2
